import Mathlib

/-!
Verification of the batch TypeScript fixer (`backend/batch-fix-types.py`).

The script is a one-shot textual rewrite engine.  `fix_api_route_file` reads a
file, applies four ordered regex substitution rules to its text, and writes the
file back exactly when the final text differs from the original.  A module-level
loop walks `<backend>/src/api/routes`, feeding every `*.ts` file that is not a
`*.test.ts` file to `fix_api_route_file` and counting the files that changed.

Texts are embedded as `List Char`.  Python's `re.sub` with the patterns used by
the script (a literal followed by a greedy `\w+` capture, and the non-greedy
`catch \(error\) \x7b[\s\S]*?error\.message` span) is embedded as a left-to-right
scan that, at each position, either rewrites the leftmost match and resumes
after it or moves one character forward.  `\w` is embedded as ASCII
letters/digits/underscore (the source files operated on are ASCII).
All scanners are structurally recursive on an explicit fuel argument that the
wrapper instantiates with the text length, so every definition evaluates by
kernel reduction.
-/

/-- Word characters, the embedding of the regex class `\w`. -/
def isWordChar (c : Char) : Bool := c.isAlphanum || c == '_'

/-- The literal part of Rule 1's pattern `request\.params\.(\w+)`. -/
def pparams : List Char := ("request.params.").toList

/-- The literal part of Rule 2's rewrite pattern `request\.query\.(\w+)`. -/
def pquery : List Char := ("request.query.").toList

/-- The literal part of Rule 3's pattern `request\.body\.(\w+)`. -/
def pbody : List Char := ("request.body.").toList

/-- Rule 2's activation substring: `'request.query' in content`. -/
def qtrig : List Char := ("request.query").toList

/-- Rule 2's injection marker: `'interface QueryParams' not in content`. -/
def marker : List Char := ("interface QueryParams").toList

/-- Rule 2's injection anchor: `re.search(r'(export async function)', content)`. -/
def anchor : List Char := ("export async function").toList

/-- The interface text Rule 2 inserts before the anchor (`interface_def`). -/
def interfaceDef : List Char :=
  ("\ninterface QueryParams \x7b\n    [key: string]: string | undefined;\n\x7d\n\n").toList

/-- The literal head of Rule 4's pattern: `catch \(error\) \x7b`. -/
def catchPat : List Char := ("catch (error) \x7b").toList

/-- The substring Rule 4's lambda replaces inside a matched span. -/
def emsg : List Char := ("error.message").toList

/-- Rule 4's replacement for `error.message`. -/
def emsgRepl : List Char := ("(error as Error).message").toList

/-- Rule 1's replacement template `(request.params as \x7b \1: string \x7d).\1`. -/
def rule1Tmpl (w : List Char) : List Char :=
  ("(request.params as \x7b ").toList ++ w ++ (": string \x7d).").toList ++ w

/-- Rule 2's replacement template `(request.query as QueryParams).\1`. -/
def rule2Tmpl (w : List Char) : List Char :=
  ("(request.query as QueryParams).").toList ++ w

/-- Rule 3's replacement template `(request.body as Record<string, unknown>).\1`. -/
def rule3Tmpl (w : List Char) : List Char :=
  ("(request.body as Record<string, unknown>).").toList ++ w

/-- Substring test, the embedding of Python's `in` on strings. -/
def containsSub (pat l : List Char) : Bool := decide (pat <:+: l)

/-- Attempt to match `pre` followed by a nonempty greedy `\w+` run at the head
of `l`; on success return the captured word and the text after the match. -/
def matchCapture (pre : List Char) (l : List Char) : Option (List Char × List Char) :=
  if pre <+: l then
    let r := l.drop pre.length
    let w := r.takeWhile isWordChar
    if w.isEmpty then none else some (w, r.dropWhile isWordChar)
  else none

/-- Fuelled scanner for `re.sub(pre ++ r'(\w+)', tmpl, l)`: rewrite each
non-overlapping leftmost match, left to right. -/
def goSC (pre : List Char) (tmpl : List Char → List Char) : Nat → List Char → List Char
  | 0, l => l
  | _ + 1, [] => []
  | n + 1, c :: cs =>
    match matchCapture pre (c :: cs) with
    | some (w, rest) => tmpl w ++ goSC pre tmpl n rest
    | none => c :: goSC pre tmpl n cs

/-- The embedding of `re.sub(pre ++ r'(\w+)', tmpl, l)` for Rules 1-3. -/
def subCapture (pre : List Char) (tmpl : List Char → List Char) (l : List Char) : List Char :=
  goSC pre tmpl l.length l

/-- Split `l` at the first occurrence of `pat`: `some (b, a)` with
`l = b ++ pat ++ a` and no occurrence of `pat` starting inside `b`; the
embedding of `re.search` with a literal pattern and of `str.find`. -/
def splitFirst (pat : List Char) : List Char → Option (List Char × List Char)
  | [] => if pat <+: ([] : List Char) then some ([], []) else none
  | c :: cs =>
    if pat <+: (c :: cs) then some ([], (c :: cs).drop pat.length)
    else (splitFirst pat cs).map (fun p => (c :: p.1, p.2))

/-- Fuelled scanner for `str.replace('error.message', '(error as Error).message')`
(left-to-right, non-overlapping), used by Rule 4's replacement lambda. -/
def goRE : Nat → List Char → List Char
  | 0, l => l
  | _ + 1, [] => []
  | n + 1, c :: cs =>
    if emsg <+: (c :: cs) then emsgRepl ++ goRE n ((c :: cs).drop emsg.length)
    else c :: goRE n cs

/-- The embedding of `m.group(0).replace('error.message', '(error as Error).message')`. -/
def replaceEM (l : List Char) : List Char := goRE l.length l

/-- Attempt to match Rule 4's non-greedy pattern
`catch \(error\) \x7b[\s\S]*?error\.message` at the head of `l`: the span runs
from the literal `catch (error) \x7b` to the first following `error.message`. -/
def matchCatch (l : List Char) : Option (List Char × List Char) :=
  if catchPat <+: l then
    match splitFirst emsg (l.drop catchPat.length) with
    | some (x, rest) => some (catchPat ++ x ++ emsg, rest)
    | none => none
  else none

/-- Fuelled scanner for Rule 4's `re.sub` with the span-rewriting lambda. -/
def goCatch : Nat → List Char → List Char
  | 0, l => l
  | _ + 1, [] => []
  | n + 1, c :: cs =>
    match matchCatch (c :: cs) with
    | some (span, rest) => replaceEM span ++ goCatch n rest
    | none => c :: goCatch n cs

/-- The embedding of Rule 4 (`catch (error)` spans). -/
def subCatch (l : List Char) : List Char := goCatch l.length l

/-- Rule 2: if `request.query` occurs, first inject the `QueryParams` interface
before the first `export async function` (unless the marker is already present
or there is no anchor), then rewrite `request.query.<word>` accesses. -/
def rule2 (l : List Char) : List Char :=
  if containsSub qtrig l then
    let l1 :=
      if containsSub marker l then l
      else
        match splitFirst anchor l with
        | some p => p.1 ++ interfaceDef ++ anchor ++ p.2
        | none => l
    subCapture pquery rule2Tmpl l1
  else l

/-- The full four-rule pipeline of `fix_api_route_file` on a file's text. -/
def fixText (l : List Char) : List Char :=
  subCatch (subCapture pbody rule3Tmpl (rule2 (subCapture pparams rule1Tmpl l)))

/-- `fix_api_route_file`: returns the write-back effect (`some newText` when the
file is overwritten, `none` when it is left untouched) and the returned flag. -/
def fix_api_route_file (content : List Char) : Option (List Char) × Bool :=
  let c := fixText content
  if c = content then (none, false) else (some c, true)

/-- The module-level file filter: `file.endswith('.ts') and not
file.endswith('.test.ts')`. -/
def isCandidate (name : List Char) : Bool :=
  decide ((".ts").toList <:+ name) && !decide ((".test.ts").toList <:+ name)

/-- Models `os.walk(routes_dir)` over a flat list of (name, content) files:
CPython's `os.walk` is called with the default `onerror=None`, so a missing or
untraversable directory produces no entries and raises no exception. -/
def walkFiles (dirExists : Bool) (files : List (List Char × List Char)) :
    List (List Char × List Char) :=
  if dirExists then files else []

/-- The module-level run: walk the routes directory, process every candidate
file, collect the performed writes and the fixed-file count.  The `Option`
codomain leaves room for an aborting configuration error; the script has no
code path producing it. -/
def runScript (dirExists : Bool) (files : List (List Char × List Char)) :
    Option (Nat × List (List Char × List Char)) :=
  let cands := (walkFiles dirExists files).filter (fun f => isCandidate f.1)
  let writes := cands.filterMap (fun f => ((fix_api_route_file f.2).1).map (fun c => (f.1, c)))
  some (writes.length, writes)

/-- Rule 2's injection condition on a post-Rule-1 text: trigger present, marker
absent, anchor found. -/
def injects (l : List Char) : Bool :=
  containsSub qtrig l && !containsSub marker l && (splitFirst anchor l).isSome

/-! ### Basic facts about the matchers and scanners -/

theorem prefix_drop_decomp {p l : List Char} (h : p <+: l) : l = p ++ l.drop p.length := by
  obtain ⟨t, ht⟩ := h
  subst ht
  rw [List.drop_left]

theorem overlap_take {a b c : List Char} (h : a <+: b ++ c) : b.take a.length <+: a := by
  have ha := List.prefix_iff_eq_take.mp h
  rw [List.take_append_eq_append_take] at ha
  exact ⟨c.take (a.length - b.length), ha.symm⟩

theorem matchCapture_some {pre l w rest : List Char}
    (h : matchCapture pre l = some (w, rest)) :
    l = pre ++ w ++ rest ∧ w ≠ [] ∧ ∀ c ∈ w, isWordChar c = true := by
  unfold matchCapture at h
  split at h
  case isTrue hp =>
    by_cases he : ((l.drop pre.length).takeWhile isWordChar).isEmpty
    · simp only [he, if_true] at h
      exact absurd h (by simp)
    · simp only [he, if_false] at h
      obtain ⟨hw, hrest⟩ := Prod.mk.injEq .. ▸ Option.some.injEq .. ▸ h
      refine ⟨?_, ?_, ?_⟩
      · rw [← hw, ← hrest, List.append_assoc, List.takeWhile_append_dropWhile]
        exact prefix_drop_decomp hp
      · rw [← hw]
        simpa [List.isEmpty_iff] using he
      · intro c hc
        rw [← hw] at hc
        exact List.mem_takeWhile_imp hc
  case isFalse hp => exact absurd h (by simp)

theorem matchCapture_length {pre l w rest : List Char}
    (h : matchCapture pre l = some (w, rest)) : rest.length < l.length := by
  obtain ⟨hl, hw, -⟩ := matchCapture_some h
  have : 0 < w.length := List.length_pos.mpr hw
  rw [hl]
  simp only [List.length_append]
  omega

theorem goSC_nil (pre : List Char) (tmpl : List Char → List Char) :
    ∀ n, goSC pre tmpl n [] = [] := by
  intro n
  cases n <;> rfl

theorem goSC_congr (pre : List Char) (tmpl : List Char → List Char) :
    ∀ n m l, l.length ≤ n → l.length ≤ m → goSC pre tmpl n l = goSC pre tmpl m l := by
  intro n
  induction n with
  | zero =>
    intro m l h1 _
    have : l = [] := List.eq_nil_of_length_eq_zero (Nat.le_zero.mp h1)
    subst this
    simp [goSC_nil]
  | succ n ih =>
    intro m l h1 h2
    match l with
    | [] => simp [goSC_nil]
    | c :: cs =>
      match m with
      | 0 => exact absurd h2 (by simp)
      | m + 1 =>
        simp only [goSC]
        cases hm : matchCapture pre (c :: cs) with
        | some p =>
          obtain ⟨w, rest⟩ := p
          have hlen := matchCapture_length hm
          simp only [List.length_cons] at h1 h2 hlen
          show tmpl w ++ goSC pre tmpl n rest = tmpl w ++ goSC pre tmpl m rest
          congr 1
          exact ih m rest (by omega) (by omega)
        | none =>
          simp only [List.length_cons] at h1 h2
          show c :: goSC pre tmpl n cs = c :: goSC pre tmpl m cs
          congr 1
          exact ih m cs (by omega) (by omega)

theorem subCapture_nil (pre : List Char) (tmpl : List Char → List Char) :
    subCapture pre tmpl [] = [] := rfl

theorem subCapture_cons_some {pre w rest : List Char} (tmpl : List Char → List Char)
    {c : Char} {cs : List Char} (h : matchCapture pre (c :: cs) = some (w, rest)) :
    subCapture pre tmpl (c :: cs) = tmpl w ++ subCapture pre tmpl rest := by
  have hlen := matchCapture_length h
  simp only [List.length_cons] at hlen
  unfold subCapture
  simp only [List.length_cons, goSC, h]
  show tmpl w ++ goSC pre tmpl cs.length rest = tmpl w ++ goSC pre tmpl rest.length rest
  congr 1
  exact goSC_congr pre tmpl cs.length rest.length rest (by omega) le_rfl

theorem subCapture_cons_none {pre : List Char} (tmpl : List Char → List Char)
    {c : Char} {cs : List Char} (h : matchCapture pre (c :: cs) = none) :
    subCapture pre tmpl (c :: cs) = c :: subCapture pre tmpl cs := by
  unfold subCapture
  simp only [List.length_cons, goSC, h]

theorem splitFirst_sound {pat l b a : List Char} (h : splitFirst pat l = some (b, a)) :
    l = b ++ pat ++ a := by
  induction l generalizing b a with
  | nil =>
    unfold splitFirst at h
    split at h
    case isTrue hp =>
      obtain ⟨hb, ha⟩ := Prod.mk.injEq .. ▸ Option.some.injEq .. ▸ h
      have : pat = [] := List.prefix_nil.mp hp
      simp [← hb, ← ha, this]
    case isFalse => exact absurd h (by simp)
  | cons c cs ih =>
    unfold splitFirst at h
    split at h
    case isTrue hp =>
      obtain ⟨hb, ha⟩ := Prod.mk.injEq .. ▸ Option.some.injEq .. ▸ h
      rw [← hb, ← ha, List.nil_append]
      exact prefix_drop_decomp hp
    case isFalse hp =>
      cases hsf : splitFirst pat cs with
      | none => rw [hsf] at h; exact absurd h (by simp)
      | some p =>
        obtain ⟨b', a'⟩ := p
        rw [hsf] at h
        obtain ⟨hb, ha⟩ := Prod.mk.injEq .. ▸ Option.some.injEq .. ▸ h
        rw [← hb, ← ha]
        simpa using ih hsf

theorem splitFirst_cons_none {pat : List Char} {c : Char} {cs : List Char}
    (h : splitFirst pat (c :: cs) = none) :
    ¬(pat <+: c :: cs) ∧ splitFirst pat cs = none := by
  unfold splitFirst at h
  split at h
  case isTrue => exact absurd h (by simp)
  case isFalse hp =>
    refine ⟨hp, ?_⟩
    cases hsf : splitFirst pat cs with
    | none => rfl
    | some p => rw [hsf] at h; exact absurd h (by simp)

theorem goRE_nil : ∀ n, goRE n [] = [] := by
  intro n
  cases n <;> rfl

theorem goRE_congr : ∀ n m l, l.length ≤ n → l.length ≤ m → goRE n l = goRE m l := by
  intro n
  induction n with
  | zero =>
    intro m l h1 _
    have : l = [] := List.eq_nil_of_length_eq_zero (Nat.le_zero.mp h1)
    subst this
    simp [goRE_nil]
  | succ n ih =>
    intro m l h1 h2
    match l with
    | [] => simp [goRE_nil]
    | c :: cs =>
      match m with
      | 0 => exact absurd h2 (by simp)
      | m + 1 =>
        simp only [goRE]
        simp only [List.length_cons] at h1 h2
        by_cases hp : emsg <+: c :: cs
        · rw [if_pos hp, if_pos hp]
          congr 1
          have : ((c :: cs).drop emsg.length).length ≤ cs.length := by
            rw [List.length_drop]
            have : 0 < emsg.length := by decide
            simp only [List.length_cons]
            omega
          exact ih m _ (by omega) (by omega)
        · rw [if_neg hp, if_neg hp]
          congr 1
          exact ih m cs (by omega) (by omega)

theorem replaceEM_nil : replaceEM [] = [] := rfl

theorem replaceEM_cons_pos {c : Char} {cs : List Char} (h : emsg <+: c :: cs) :
    replaceEM (c :: cs) = emsgRepl ++ replaceEM ((c :: cs).drop emsg.length) := by
  unfold replaceEM
  simp only [List.length_cons, goRE, if_pos h]
  congr 1
  have hd : ((c :: cs).drop emsg.length).length ≤ cs.length := by
    rw [List.length_drop]
    have : 0 < emsg.length := by decide
    simp only [List.length_cons]
    omega
  exact goRE_congr cs.length _ _ hd le_rfl

theorem replaceEM_cons_neg {c : Char} {cs : List Char} (h : ¬(emsg <+: c :: cs)) :
    replaceEM (c :: cs) = c :: replaceEM cs := by
  unfold replaceEM
  simp only [List.length_cons, goRE, if_neg h]

theorem matchCatch_some {l span rest : List Char} (h : matchCatch l = some (span, rest)) :
    ∃ x, span = catchPat ++ x ++ emsg ∧ l = catchPat ++ x ++ emsg ++ rest ∧
      splitFirst emsg (l.drop catchPat.length) = some (x, rest) := by
  unfold matchCatch at h
  split at h
  case isTrue hp =>
    cases hsf : splitFirst emsg (l.drop catchPat.length) with
    | none => rw [hsf] at h; exact absurd h (by simp)
    | some p =>
      obtain ⟨x, r'⟩ := p
      rw [hsf] at h
      obtain ⟨hspan, hrest⟩ := Prod.mk.injEq .. ▸ Option.some.injEq .. ▸ h
      subst hrest
      refine ⟨x, hspan.symm, ?_, rfl⟩
      have hl := prefix_drop_decomp hp
      have hr := splitFirst_sound hsf
      conv_lhs => rw [hl, hr]
      simp [List.append_assoc]
  case isFalse => exact absurd h (by simp)

theorem matchCatch_none_of_not {l : List Char} (h : ¬(catchPat <+: l)) :
    matchCatch l = none := by
  unfold matchCatch
  rw [if_neg h]

theorem matchCatch_length {l span rest : List Char} (h : matchCatch l = some (span, rest)) :
    rest.length < l.length := by
  obtain ⟨x, -, hl, -⟩ := matchCatch_some h
  have hc : 0 < catchPat.length := by decide
  rw [hl]
  simp only [List.length_append]
  omega

theorem goCatch_nil : ∀ n, goCatch n [] = [] := by
  intro n
  cases n <;> rfl

theorem goCatch_congr : ∀ n m l, l.length ≤ n → l.length ≤ m → goCatch n l = goCatch m l := by
  intro n
  induction n with
  | zero =>
    intro m l h1 _
    have : l = [] := List.eq_nil_of_length_eq_zero (Nat.le_zero.mp h1)
    subst this
    simp [goCatch_nil]
  | succ n ih =>
    intro m l h1 h2
    match l with
    | [] => simp [goCatch_nil]
    | c :: cs =>
      match m with
      | 0 => exact absurd h2 (by simp)
      | m + 1 =>
        simp only [goCatch]
        cases hm : matchCatch (c :: cs) with
        | some p =>
          obtain ⟨span, rest⟩ := p
          have hlen := matchCatch_length hm
          simp only [List.length_cons] at h1 h2 hlen
          show replaceEM span ++ goCatch n rest = replaceEM span ++ goCatch m rest
          congr 1
          exact ih m rest (by omega) (by omega)
        | none =>
          simp only [List.length_cons] at h1 h2
          show c :: goCatch n cs = c :: goCatch m cs
          congr 1
          exact ih m cs (by omega) (by omega)

theorem subCatch_nil : subCatch [] = [] := rfl

theorem subCatch_cons_some {span rest : List Char} {c : Char} {cs : List Char}
    (h : matchCatch (c :: cs) = some (span, rest)) :
    subCatch (c :: cs) = replaceEM span ++ subCatch rest := by
  have hlen := matchCatch_length h
  simp only [List.length_cons] at hlen
  unfold subCatch
  simp only [List.length_cons, goCatch, h]
  show replaceEM span ++ goCatch cs.length rest = replaceEM span ++ goCatch rest.length rest
  congr 1
  exact goCatch_congr cs.length rest.length rest (by omega) le_rfl

theorem subCatch_cons_none {c : Char} {cs : List Char} (h : matchCatch (c :: cs) = none) :
    subCatch (c :: cs) = c :: subCatch cs := by
  unfold subCatch
  simp only [List.length_cons, goCatch, h]

/-! ### Behaviour of the scanners at the first occurrence of their pattern -/

theorem infix_of_pre {p l : List Char} (h : p <+: l) : p <:+: l := by
  obtain ⟨t, ht⟩ := h
  exact ⟨[], t, by simp [ht]⟩

theorem subCapture_no_occ {pre : List Char} (tmpl : List Char → List Char) {l : List Char}
    (h : ¬(pre <:+: l)) : subCapture pre tmpl l = l := by
  induction l with
  | nil => exact subCapture_nil pre tmpl
  | cons c cs ih =>
    cases hm : matchCapture pre (c :: cs) with
    | some p =>
      exfalso
      obtain ⟨w, rest⟩ := p
      have hl := (matchCapture_some hm).1
      exact h ⟨[], w ++ rest, by rw [List.nil_append, ← List.append_assoc, ← hl]⟩
    | none =>
      rw [subCapture_cons_none tmpl hm, ih (fun hi => h (List.infix_cons hi))]

theorem subCapture_splitFirst {pre : List Char} (tmpl : List Char → List Char)
    {l b r : List Char} (h : splitFirst pre l = some (b, r))
    (hw : r.takeWhile isWordChar ≠ []) :
    subCapture pre tmpl l =
      b ++ tmpl (r.takeWhile isWordChar) ++ subCapture pre tmpl (r.dropWhile isWordChar) := by
  induction l generalizing b with
  | nil =>
    unfold splitFirst at h
    split at h
    case isTrue hp =>
      obtain ⟨hb, hr⟩ := Prod.mk.injEq .. ▸ Option.some.injEq .. ▸ h
      rw [← hr] at hw
      simp at hw
    case isFalse => exact absurd h (by simp)
  | cons c cs ih =>
    unfold splitFirst at h
    split at h
    case isTrue hp =>
      obtain ⟨hb, hr⟩ := Prod.mk.injEq .. ▸ Option.some.injEq .. ▸ h
      have hmc : matchCapture pre (c :: cs) =
          some (r.takeWhile isWordChar, r.dropWhile isWordChar) := by
        unfold matchCapture
        rw [if_pos hp]
        simp only [hr]
        rw [if_neg (by simpa [List.isEmpty_iff] using hw)]
    
      rw [subCapture_cons_some tmpl hmc, ← hb, List.nil_append]
    case isFalse hp =>
      cases hsf : splitFirst pre cs with
      | none => rw [hsf] at h; exact absurd h (by simp)
      | some p =>
        obtain ⟨b', r'⟩ := p
        rw [hsf] at h
        obtain ⟨hb, hr⟩ := Prod.mk.injEq .. ▸ Option.some.injEq .. ▸ h
        subst hr
        have hmc : matchCapture pre (c :: cs) = none := by
          unfold matchCapture
          rw [if_neg hp]
        rw [subCapture_cons_none tmpl hmc, ih hsf, ← hb]
        simp

theorem replaceEM_no_occ {l : List Char} (h : splitFirst emsg l = none) : replaceEM l = l := by
  induction l with
  | nil => exact replaceEM_nil
  | cons c cs ih =>
    obtain ⟨hnp, hrec⟩ := splitFirst_cons_none h
    rw [replaceEM_cons_neg hnp, ih hrec]

theorem replaceEM_splitFirst {l b a : List Char} (h : splitFirst emsg l = some (b, a)) :
    replaceEM l = b ++ emsgRepl ++ replaceEM a := by
  induction l generalizing b with
  | nil =>
    unfold splitFirst at h
    rw [if_neg (by decide)] at h
    exact absurd h (by simp)
  | cons c cs ih =>
    unfold splitFirst at h
    split at h
    case isTrue hp =>
      obtain ⟨hb, ha⟩ := Prod.mk.injEq .. ▸ Option.some.injEq .. ▸ h
      rw [replaceEM_cons_pos hp, ← hb, ← ha, List.nil_append]
    case isFalse hp =>
      cases hsf : splitFirst emsg cs with
      | none => rw [hsf] at h; exact absurd h (by simp)
      | some p =>
        obtain ⟨b', a'⟩ := p
        rw [hsf] at h
        obtain ⟨hb, ha⟩ := Prod.mk.injEq .. ▸ Option.some.injEq .. ▸ h
        subst ha
        rw [replaceEM_cons_neg hp, ih hsf, ← hb]
        simp

theorem subCatch_no_occ {l : List Char} (h : splitFirst catchPat l = none) : subCatch l = l := by
  induction l with
  | nil => exact subCatch_nil
  | cons c cs ih =>
    obtain ⟨hnp, hrec⟩ := splitFirst_cons_none h
    rw [subCatch_cons_none (matchCatch_none_of_not hnp), ih hrec]

theorem subCatch_no_cp {l : List Char} (h : ¬(catchPat <:+: l)) : subCatch l = l := by
  induction l with
  | nil => exact subCatch_nil
  | cons c cs ih =>
    cases hm : matchCatch (c :: cs) with
    | some p =>
      exfalso
      obtain ⟨span, rest⟩ := p
      obtain ⟨x, -, hl, -⟩ := matchCatch_some hm
      exact h ⟨[], x ++ emsg ++ rest, by rw [List.nil_append, ← List.append_assoc,
        ← List.append_assoc, ← hl]⟩
    | none =>
      rw [subCatch_cons_none hm, ih (fun hi => h (List.infix_cons hi))]

theorem subCatch_splitFirst {l b r x rest : List Char}
    (h1 : splitFirst catchPat l = some (b, r)) (h2 : splitFirst emsg r = some (x, rest)) :
    subCatch l = b ++ replaceEM (catchPat ++ x ++ emsg) ++ subCatch rest := by
  induction l generalizing b with
  | nil =>
    unfold splitFirst at h1
    rw [if_neg (by decide)] at h1
    exact absurd h1 (by simp)
  | cons c cs ih =>
    unfold splitFirst at h1
    split at h1
    case isTrue hp =>
      obtain ⟨hb, hr⟩ := Prod.mk.injEq .. ▸ Option.some.injEq .. ▸ h1
      have hmc : matchCatch (c :: cs) = some (catchPat ++ x ++ emsg, rest) := by
        unfold matchCatch
        rw [if_pos hp, hr, h2]
      rw [subCatch_cons_some hmc, ← hb, List.nil_append]
    case isFalse hp =>
      cases hsf : splitFirst catchPat cs with
      | none => rw [hsf] at h1; exact absurd h1 (by simp)
      | some p =>
        obtain ⟨b', r'⟩ := p
        rw [hsf] at h1
        obtain ⟨hb, hr⟩ := Prod.mk.injEq .. ▸ Option.some.injEq .. ▸ h1
        subst hr
        rw [subCatch_cons_none (matchCatch_none_of_not hp), ih hsf, ← hb]
        simp

/-! ### Claim theorems -/

theorem no_sub {pat t : List Char} (h : containsSub pat t = false) : ¬(pat <:+: t) := by
  simpa [containsSub] using h

/-- C1: a file whose entire content is `const id = request.params.id;` is
rewritten to `const id = (request.params as \x7b id: string \x7d).id;` with
changed = true, and a second run on the rewritten text leaves it unchanged
(changed = false): Rule 1's regex does not re-match its own cast output. -/
theorem rule1_end_to_end_idempotent :
    fix_api_route_file (("const id = request.params.id;").toList) =
      (some (("const id = (request.params as \x7b id: string \x7d).id;").toList), true) ∧
    fix_api_route_file (("const id = (request.params as \x7b id: string \x7d).id;").toList) =
      (none, false) := ⟨rfl, rfl⟩

/-- C2: on any input containing none of the four trigger substrings
`.params.`, `.query`, `.body.`, `catch (error)`, the engine returns the input
text unchanged, reports changed = false, and performs no write. -/
theorem no_trigger_no_change (t : List Char)
    (h1 : containsSub ((".params.").toList) t = false)
    (h2 : containsSub ((".query").toList) t = false)
    (h3 : containsSub ((".body.").toList) t = false)
    (h4 : containsSub (("catch (error)").toList) t = false) :
    fixText t = t ∧ fix_api_route_file t = (none, false) := by
  have n1 : ¬(pparams <:+: t) := fun hp =>
    no_sub h1 (((by decide : ((".params.").toList) <:+: pparams)).trans hp)
  have n3 : ¬(pbody <:+: t) := fun hp =>
    no_sub h3 (((by decide : ((".body.").toList) <:+: pbody)).trans hp)
  have n4 : ¬(catchPat <:+: t) := fun hp =>
    no_sub h4 (((by decide : (("catch (error)").toList) <:+: catchPat)).trans hp)
  have n2 : containsSub qtrig t = false := by
    have : ¬(qtrig <:+: t) := fun hp =>
      no_sub h2 (((by decide : ((".query").toList) <:+: qtrig)).trans hp)
    simpa [containsSub] using this
  have e1 : subCapture pparams rule1Tmpl t = t := subCapture_no_occ rule1Tmpl n1
  have e2 : rule2 t = t := by simp [rule2, n2]
  have e3 : subCapture pbody rule3Tmpl t = t := subCapture_no_occ rule3Tmpl n3
  have e4 : subCatch t = t := subCatch_no_cp n4
  have hfix : fixText t = t := by
    unfold fixText
    rw [e1, e2, e3, e4]
  exact ⟨hfix, by simp [fix_api_route_file, hfix]⟩

/-- Witness for C2 at the concrete input `const x = 1;`. -/
theorem no_trigger_no_change_witness :
    fixText (("const x = 1;").toList) = (("const x = 1;").toList) ∧
    fix_api_route_file (("const x = 1;").toList) = (none, false) :=
  no_trigger_no_change (("const x = 1;").toList) rfl rfl rfl rfl

/-- C3: Rule 4 rewrites `error.message` only inside a `catch (error) \x7b ... \x7d`
block.  First conjunct: for a text whose first catch block contains exactly one
`error.message` (the span from `catch (error) \x7b` to that first
`error.message`, as located by the non-greedy pattern), exactly that occurrence
is rewritten and the rest of the text — including everything after the span —
is untouched.  Second conjunct: a text containing `error.message` but no
`catch (error) \x7b` at all is left entirely untouched by Rule 4. -/
theorem rule4_catch_scope :
    (∀ p x y : List Char,
      splitFirst catchPat (p ++ catchPat ++ x ++ emsg ++ y) = some (p, x ++ emsg ++ y) →
      splitFirst emsg (x ++ emsg ++ y) = some (x, y) →
      splitFirst emsg (catchPat ++ x ++ emsg) = some (catchPat ++ x, []) →
      splitFirst catchPat y = none →
      subCatch (p ++ catchPat ++ x ++ emsg ++ y) = p ++ catchPat ++ x ++ emsgRepl ++ y) ∧
    (∀ p q : List Char, splitFirst catchPat (p ++ emsg ++ q) = none →
      subCatch (p ++ emsg ++ q) = p ++ emsg ++ q) := by
  constructor
  · intro p x y h1 h2 h4 h3
    rw [subCatch_splitFirst h1 h2, replaceEM_splitFirst h4, replaceEM_nil,
      subCatch_no_occ h3]
    simp [List.append_assoc]
  · exact fun p q h => subCatch_no_occ h

/-- Witness for C3: a concrete catch block with one `error.message`, and a
concrete catch-free text with a bare `error.message`. -/
theorem rule4_catch_scope_witness :
    subCatch (("A ").toList ++ catchPat ++ (" log(e); ").toList ++ emsg ++ (" \x7d B").toList) =
      ("A ").toList ++ catchPat ++ (" log(e); ").toList ++ emsgRepl ++ (" \x7d B").toList ∧
    subCatch (("x ").toList ++ emsg ++ (" y").toList) =
      ("x ").toList ++ emsg ++ (" y").toList :=
  ⟨rule4_catch_scope.1 _ _ _ rfl rfl rfl rfl, rule4_catch_scope.2 _ _ rfl⟩

/-- C10: when a single catch block contains `error.message` twice (no further
`catch (error) \x7b` intervening), the non-greedy span ends at the first
occurrence, so only the first occurrence is rewritten and the second one is
left unchanged. -/
theorem rule4_first_occurrence_only :
    ∀ p x y z : List Char,
      splitFirst catchPat (p ++ catchPat ++ x ++ emsg ++ y ++ emsg ++ z) =
        some (p, x ++ emsg ++ y ++ emsg ++ z) →
      splitFirst emsg (x ++ emsg ++ y ++ emsg ++ z) = some (x, y ++ emsg ++ z) →
      splitFirst emsg (catchPat ++ x ++ emsg) = some (catchPat ++ x, []) →
      splitFirst catchPat (y ++ emsg ++ z) = none →
      subCatch (p ++ catchPat ++ x ++ emsg ++ y ++ emsg ++ z) =
        p ++ catchPat ++ x ++ emsgRepl ++ y ++ emsg ++ z := by
  intro p x y z h1 h2 h4 h3
  have hr : (x ++ emsg ++ y ++ emsg ++ z) = (x ++ emsg ++ (y ++ emsg ++ z)) := by
    simp [List.append_assoc]
  rw [hr] at h1 h2
  rw [show p ++ catchPat ++ x ++ emsg ++ y ++ emsg ++ z =
      p ++ catchPat ++ x ++ emsg ++ (y ++ emsg ++ z) by simp [List.append_assoc]] at h1 ⊢
  rw [subCatch_splitFirst h1 h2, replaceEM_splitFirst h4, replaceEM_nil,
    subCatch_no_occ h3]
  simp [List.append_assoc]

/-- Witness for C10: a concrete catch block containing `error.message` twice. -/
theorem rule4_first_occurrence_only_witness :
    subCatch (("P ").toList ++ catchPat ++ (" a; ").toList ++ emsg ++ ("; log ").toList ++
        emsg ++ ("; \x7d Q").toList) =
      ("P ").toList ++ catchPat ++ (" a; ").toList ++ emsgRepl ++ ("; log ").toList ++
        emsg ++ ("; \x7d Q").toList :=
  rule4_first_occurrence_only _ _ _ _ rfl rfl rfl rfl

/-- Counterexample to C4: Rule 1's pattern anchors on the literal receiver
`request`, so `req.params.id` is not rewritten — the whole engine leaves the
input unchanged instead of producing the claimed cast form. -/
theorem rule1_nonliteral_receiver_unrewritten :
    fixText (("const a = req.params.id;").toList) = ("const a = req.params.id;").toList ∧
    ("const a = req.params.id;").toList ≠
      ("const a = (req.params as \x7b id: string \x7d).id;").toList := ⟨rfl, by decide⟩

/-- Amended C4: Rule 1 rewrites occurrences of the literal
`request.params.<identifier>` (a single word-token identifier) into the cast
form `(request.params as \x7b <identifier>: string \x7d).<identifier>`,
scanning left to right: at the first occurrence of the literal
`request.params.` followed by a word character the maximal word run is captured
and replaced by the cast, and scanning continues on the remaining text.
Receivers other than the literal token `request` are not matched. -/
theorem rule1_literal_occurrences_rewritten :
    (∀ l b r : List Char, splitFirst pparams l = some (b, r) →
      r.takeWhile isWordChar ≠ [] →
      subCapture pparams rule1Tmpl l =
        b ++ rule1Tmpl (r.takeWhile isWordChar) ++
          subCapture pparams rule1Tmpl (r.dropWhile isWordChar)) ∧
    (∀ w : List Char, rule1Tmpl w =
      ("(request.params as \x7b ").toList ++ w ++ (": string \x7d).").toList ++ w) :=
  ⟨fun _ _ _ h hw => subCapture_splitFirst rule1Tmpl h hw, fun _ => rfl⟩

/-- Witness for amended C4 at the concrete input `request.params.id;x`. -/
theorem rule1_literal_occurrences_rewritten_witness :
    subCapture pparams rule1Tmpl (("request.params.id;x").toList) =
      ("(request.params as \x7b id: string \x7d).id;x").toList :=
  rule1_literal_occurrences_rewritten.1 (("request.params.id;x").toList) [] ((("id;x").toList))
    rfl (by decide)

/-- Counterexample to C6: the rewrite sub-step of Rule 2 anchors on the literal
receiver `request`, so with Rule 2 activated (the text contains
`request.query`) an access `req.query.foo` is not rewritten: the engine leaves
the input unchanged instead of producing the claimed cast form. -/
theorem rule2_nonliteral_receiver_unrewritten :
    fixText (("request.query; req.query.foo").toList) =
      ("request.query; req.query.foo").toList ∧
    ("request.query; req.query.foo").toList ≠
      ("request.query; (req.query as QueryParams).foo").toList := ⟨rfl, by decide⟩

/-- Amended C6: when Rule 2 activates (`request.query` occurs after Rule 1) and
the marker `interface QueryParams` is absent, the fixed interface block
followed by a blank line is inserted immediately before the first occurrence
of `export async function` if one exists; if no anchor occurs, no injection
happens (not an error).  In either case every occurrence of the literal
`request.query.<identifier>` is rewritten to
`(request.query as QueryParams).<identifier>`; accesses with other receiver
expressions are not matched. -/
theorem rule2_injection_and_rewrite :
    (∀ l b a : List Char, containsSub qtrig l = true → containsSub marker l = false →
      splitFirst anchor l = some (b, a) →
      rule2 l = subCapture pquery rule2Tmpl (b ++ interfaceDef ++ anchor ++ a)) ∧
    (∀ l : List Char, containsSub qtrig l = true → splitFirst anchor l = none →
      rule2 l = subCapture pquery rule2Tmpl l) ∧
    (∀ l b r : List Char, splitFirst pquery l = some (b, r) →
      r.takeWhile isWordChar ≠ [] →
      subCapture pquery rule2Tmpl l =
        b ++ rule2Tmpl (r.takeWhile isWordChar) ++
          subCapture pquery rule2Tmpl (r.dropWhile isWordChar)) := by
  refine ⟨?_, ?_, fun _ _ _ h hw => subCapture_splitFirst rule2Tmpl h hw⟩
  · intro l b a hq hm hsf
    simp [rule2, hq, hm, hsf]
  · intro l hq hsf
    cases hm : containsSub marker l with
    | true => simp [rule2, hq, hm]
    | false => simp [rule2, hq, hm, hsf]

/-- Witness for amended C6: anchored injection plus rewrite on a concrete
input. -/
theorem rule2_injection_and_rewrite_witness :
    rule2 (("x export async function q(request.query.a)").toList) =
      subCapture pquery rule2Tmpl (("x ").toList ++ interfaceDef ++ anchor ++
        (" q(request.query.a)").toList) :=
  rule2_injection_and_rewrite.1 (("x export async function q(request.query.a)").toList)
    (("x ").toList) ((" q(request.query.a)").toList) rfl rfl rfl

/-- C7: after all four rules run, the changed flag is exactly
`final text != original text`, the file is written if and only if the flag is
true, and when it is written the disk receives exactly the final text. -/
theorem changed_iff_text_differs (t : List Char) :
    ((fix_api_route_file t).2 = true ↔ fixText t ≠ t) ∧
    ((fix_api_route_file t).1.isSome = (fix_api_route_file t).2) ∧
    ((fix_api_route_file t).1 = if fixText t = t then none else some (fixText t)) := by
  unfold fix_api_route_file
  by_cases h : fixText t = t
  · simp [h]
  · simp [h]

/-- Witness for C7 at a concrete changed input. -/
theorem changed_iff_text_differs_witness :
    ((fix_api_route_file (("request.params.id").toList)).2 = true ↔
      fixText (("request.params.id").toList) ≠ ("request.params.id").toList) ∧
    ((fix_api_route_file (("request.params.id").toList)).1.isSome =
      (fix_api_route_file (("request.params.id").toList)).2) ∧
    ((fix_api_route_file (("request.params.id").toList)).1 =
      if fixText (("request.params.id").toList) = ("request.params.id").toList then none
      else some (fixText (("request.params.id").toList))) :=
  changed_iff_text_differs (("request.params.id").toList)

/-- Counterexample to C8: with the routes directory missing, the run does not
fail — `os.walk` yields no entries, so the script completes normally with a
zero count and no file touched. -/
theorem missing_dir_completes_normally :
    runScript false [((("a.ts").toList), ("request.params.id").toList)] = some (0, []) := rfl

/-- Amended C8: if the target routes directory does not exist or is not
traversable, `os.walk` produces no entries and the run completes normally,
reporting zero fixed files and performing no write — it does not abort with a
configuration error. -/
theorem missing_dir_zero_report :
    ∀ files, runScript false files = some (0, []) := fun _ => rfl

/-- C9: a file is a candidate iff its name ends with `.ts` and does not end
with `.test.ts`; of `a.ts`, `a.test.ts`, `b.js` only `a.ts` is a candidate. -/
theorem candidate_iff_suffixes :
    (∀ n : List Char, isCandidate n = true ↔
      (((".ts").toList <:+ n) ∧ ¬(((".test.ts").toList) <:+ n))) ∧
    isCandidate (("a.ts").toList) = true ∧ isCandidate (("a.test.ts").toList) = false ∧
    isCandidate (("b.js").toList) = false := by
  refine ⟨?_, rfl, rfl, rfl⟩
  intro n
  simp [isCandidate]

/-- Witness for C9 instantiating the characterization at a concrete name. -/
theorem candidate_iff_suffixes_witness :
    isCandidate (("routes/user.ts").toList) = true ↔
      (((".ts").toList <:+ ("routes/user.ts").toList) ∧
        ¬(((".test.ts").toList) <:+ ("routes/user.ts").toList)) :=
  candidate_iff_suffixes.1 (("routes/user.ts").toList)

/-! ### Preservation of the interface marker across the rewrite rules.
These lemmas support the amended C5: once Rule 2 has injected the
`interface QueryParams` block, no later rule and no second run can destroy the
marker substring, so injection happens at most once.  The `hA`/`hB` hypotheses
say that no occurrence of the scanner's literal pattern can start inside,
or reach into, the protected segment `m`; they are discharged by `decide` at
the concrete instances. -/

theorem subCapture_append_skip {pre : List Char} (tmpl : List Char → List Char) :
    ∀ m : List Char, (∀ k, k < m.length → ¬((m.drop k).take pre.length <+: pre)) →
      ∀ v, subCapture pre tmpl (m ++ v) = m ++ subCapture pre tmpl v := by
  intro m
  induction m with
  | nil => intro _ v; simp
  | cons c m1 ih =>
    intro hA v
    have hnm : matchCapture pre (c :: (m1 ++ v)) = none := by
      cases hmc : matchCapture pre (c :: (m1 ++ v)) with
      | none => rfl
      | some p =>
        exfalso
        obtain ⟨w, rest⟩ := p
        have hl := (matchCapture_some hmc).1
        have hpp : pre <+: (c :: m1) ++ v :=
          ⟨w ++ rest, by rw [List.cons_append, ← List.append_assoc, ← hl]⟩
        have hov := overlap_take hpp
        exact hA 0 (by simp) (by simpa using hov)
    show subCapture pre tmpl (c :: (m1 ++ v)) = c :: (m1 ++ subCapture pre tmpl v)
    rw [subCapture_cons_none tmpl hnm,
      ih (fun k hk => by simpa using hA (k + 1) (by simpa using Nat.succ_lt_succ hk)) v]

theorem replaceEM_append_skip :
    ∀ m : List Char, (∀ k, k < m.length → ¬((m.drop k).take emsg.length <+: emsg)) →
      ∀ v, replaceEM (m ++ v) = m ++ replaceEM v := by
  intro m
  induction m with
  | nil => intro _ v; simp
  | cons c m1 ih =>
    intro hA v
    have hnp : ¬(emsg <+: c :: (m1 ++ v)) := by
      intro hp
      have hpp : emsg <+: (c :: m1) ++ v := by rwa [List.cons_append]
      exact hA 0 (by simp) (by simpa using overlap_take hpp)
    show replaceEM (c :: (m1 ++ v)) = c :: (m1 ++ replaceEM v)
    rw [replaceEM_cons_neg hnp,
      ih (fun k hk => by simpa using hA (k + 1) (by simpa using Nat.succ_lt_succ hk)) v]

theorem subCatch_append_skip :
    ∀ m : List Char, (∀ k, k < m.length → ¬((m.drop k).take catchPat.length <+: catchPat)) →
      ∀ v, subCatch (m ++ v) = m ++ subCatch v := by
  intro m
  induction m with
  | nil => intro _ v; simp
  | cons c m1 ih =>
    intro hA v
    have hnp : ¬(catchPat <+: c :: (m1 ++ v)) := by
      intro hp
      have hpp : catchPat <+: (c :: m1) ++ v := by rwa [List.cons_append]
      exact hA 0 (by simp) (by simpa using overlap_take hpp)
    show subCatch (c :: (m1 ++ v)) = c :: (m1 ++ subCatch v)
    rw [subCatch_cons_none (matchCatch_none_of_not hnp),
      ih (fun k hk => by simpa using hA (k + 1) (by simpa using Nat.succ_lt_succ hk)) v]

theorem append_split_of_le {a b c d : List Char} (h : a ++ b = c ++ d)
    (hlen : c.length ≤ a.length) : ∃ e, a = c ++ e ∧ d = e ++ b := by
  have hca : c <+: a :=
    List.prefix_of_prefix_length_le ⟨d, h.symm⟩ ⟨b, rfl⟩ hlen
  refine ⟨a.drop c.length, prefix_drop_decomp hca, ?_⟩
  have h2 : c ++ (a.drop c.length ++ b) = c ++ d := by
    rw [← List.append_assoc, ← prefix_drop_decomp hca, h]
  exact (List.append_cancel_left h2).symm

theorem subCapture_mid {pre : List Char} (tmpl : List Char → List Char) (m : List Char)
    (hA : ∀ k, k < m.length → ¬((m.drop k).take pre.length <+: pre))
    (hB : ∀ j, j < pre.length → 0 < j → ¬(m.take (pre.length - j) <+: pre.drop j))
    (hmw : ¬(∀ c ∈ m, isWordChar c = true))
    (htm : ∀ w, ∃ s, tmpl w = s ++ w) :
    ∀ u v, ∃ u2 v2, subCapture pre tmpl (u ++ m ++ v) = u2 ++ m ++ v2 := by
  suffices H : ∀ N u v, u.length ≤ N →
      ∃ u2 v2, subCapture pre tmpl (u ++ m ++ v) = u2 ++ m ++ v2 by
    exact fun u v => H u.length u v le_rfl
  intro N
  induction N with
  | zero =>
    intro u v hu
    have hu0 : u = [] := List.eq_nil_of_length_eq_zero (Nat.le_zero.mp hu)
    subst hu0
    exact ⟨[], subCapture pre tmpl v, by simpa using subCapture_append_skip tmpl m hA v⟩
  | succ N ih =>
    intro u v hu
    match u with
    | [] =>
      exact ⟨[], subCapture pre tmpl v, by simpa using subCapture_append_skip tmpl m hA v⟩
    | c :: u1 =>
      have hshape : (c :: u1) ++ m ++ v = c :: (u1 ++ m ++ v) := by simp
      cases hmc : matchCapture pre (c :: (u1 ++ m ++ v)) with
      | none =>
        obtain ⟨u2, v2, he⟩ := ih u1 v (by
          simp only [List.length_cons] at hu
          omega)
        refine ⟨c :: u2, v2, ?_⟩
        rw [hshape, subCapture_cons_none tmpl hmc, he]
        simp
      | some p =>
        obtain ⟨w, rest⟩ := p
        obtain ⟨hl, hwne, hwc⟩ := matchCapture_some hmc
        have hwpos : 0 < w.length := List.length_pos.mpr hwne
        have hL1 : (c :: u1) ++ (m ++ v) = pre ++ (w ++ rest) := by
          calc (c :: u1) ++ (m ++ v) = c :: (u1 ++ m ++ v) := by simp [List.append_assoc]
          _ = pre ++ w ++ rest := hl
          _ = pre ++ (w ++ rest) := by simp [List.append_assoc]
        have hsub : subCapture pre tmpl ((c :: u1) ++ m ++ v) =
            tmpl w ++ subCapture pre tmpl rest := by
          rw [hshape]
          exact subCapture_cons_some tmpl hmc
        by_cases hc1 : pre.length + w.length ≤ (c :: u1).length
        · -- The whole match lies inside `u`.
          obtain ⟨e, hue, hre⟩ := append_split_of_le
            (a := c :: u1) (b := m ++ v) (c := pre ++ w) (d := rest)
            (by rw [hL1, List.append_assoc]) (by simpa using hc1)
          obtain ⟨u2, v2, he⟩ := ih e v (by
            have h1 : (c :: u1).length = pre.length + w.length + e.length := by
              rw [hue]
              simp only [List.length_append]
            simp only [List.length_cons] at h1 hu
            omega)
          refine ⟨tmpl w ++ u2, v2, ?_⟩
          rw [hsub, hre, ← List.append_assoc, he]
          simp [List.append_assoc]
        · by_cases hc2 : (c :: u1).length < pre.length
          · -- `u` ends strictly inside the literal `pre`: the pattern would
            -- have to reach into `m`, which `hB` excludes.
            exfalso
            obtain ⟨e, hpe, hme⟩ := append_split_of_le
              (a := pre) (b := w ++ rest) (c := c :: u1) (d := m ++ v)
              hL1.symm (Nat.le_of_lt hc2)
            have hed : e = pre.drop (c :: u1).length := by
              rw [hpe, List.drop_left]
            have helen : e.length = pre.length - (c :: u1).length := by
              rw [hed, List.length_drop]
            have hovl : m.take e.length <+: e := overlap_take ⟨w ++ rest, hme.symm⟩
            refine hB (c :: u1).length hc2 (by simp) ?_
            rw [← hed, ← helen]
            exact hovl
          · -- `pre` fits inside `u` but the captured word reaches into `m`.
            have hc2' : pre.length ≤ (c :: u1).length := Nat.not_lt.mp hc2
            obtain ⟨e1, hue, he1⟩ := append_split_of_le
              (a := c :: u1) (b := m ++ v) (c := pre) (d := w ++ rest) hL1 hc2'
            have he1len : e1.length < w.length := by
              have h1 : (c :: u1).length = pre.length + e1.length := by rw [hue]; simp
              omega
            obtain ⟨w2, hww, hmv⟩ := append_split_of_le
              (a := w) (b := rest) (c := e1) (d := m ++ v)
              he1 (Nat.le_of_lt he1len)
            have hw2pos : 0 < w2.length := by
              have h1 : w.length = e1.length + w2.length := by rw [hww]; simp
              omega
            by_cases hc3 : m.length ≤ w2.length
            · -- `m` would lie entirely inside the captured `\w+` word:
              -- impossible, `m` contains a non-word character.
              exfalso
              obtain ⟨x3, hwx, -⟩ := append_split_of_le
                (a := w2) (b := rest) (c := m) (d := v) hmv.symm hc3
              refine hmw (fun ch hch => ?_)
              have : ch ∈ w2 := by rw [hwx]; exact List.mem_append_left x3 hch
              have : ch ∈ w := by rw [hww]; exact List.mem_append_right e1 this
              exact hwc ch this
            · -- The word ends inside `m`; the scan then skips the rest of `m`.
              have hc3' : w2.length ≤ m.length := Nat.le_of_lt (Nat.not_le.mp hc3)
              obtain ⟨m2, hmm, hrest⟩ := append_split_of_le
                (a := m) (b := v) (c := w2) (d := rest) hmv hc3'
              have hm2d : m2 = m.drop w2.length := by rw [hmm, List.drop_left]
              have hw2t : w2 = m.take w2.length := by rw [hmm, List.take_left]
              have hskip : subCapture pre tmpl (m2 ++ v) = m2 ++ subCapture pre tmpl v := by
                refine subCapture_append_skip tmpl m2 (fun k hk => ?_) v
                rw [hm2d, List.drop_drop]
                have hkb : w2.length + k < m.length := by
                  rw [hm2d, List.length_drop] at hk
                  omega
                exact hA (w2.length + k) hkb
              obtain ⟨s, hs⟩ := htm w
              refine ⟨s ++ e1, subCapture pre tmpl v, ?_⟩
              rw [hsub, hrest, hskip, hs, hww]
              calc s ++ (e1 ++ w2) ++ (m2 ++ subCapture pre tmpl v)
                  = (s ++ e1) ++ (w2 ++ m2) ++ subCapture pre tmpl v := by
                    simp [List.append_assoc]
                _ = (s ++ e1) ++ m ++ subCapture pre tmpl v := by rw [← hmm]

theorem replaceEM_mid (m : List Char)
    (hA : ∀ k, k < m.length → ¬((m.drop k).take emsg.length <+: emsg))
    (hB : ∀ j, j < emsg.length → 0 < j → ¬(m.take (emsg.length - j) <+: emsg.drop j)) :
    ∀ u v, ∃ u2 v2, replaceEM (u ++ m ++ v) = u2 ++ m ++ v2 := by
  suffices H : ∀ N u v, u.length ≤ N → ∃ u2 v2, replaceEM (u ++ m ++ v) = u2 ++ m ++ v2 by
    exact fun u v => H u.length u v le_rfl
  intro N
  induction N with
  | zero =>
    intro u v hu
    have hu0 : u = [] := List.eq_nil_of_length_eq_zero (Nat.le_zero.mp hu)
    subst hu0
    exact ⟨[], replaceEM v, by simpa using replaceEM_append_skip m hA v⟩
  | succ N ih =>
    intro u v hu
    match u with
    | [] =>
      exact ⟨[], replaceEM v, by simpa using replaceEM_append_skip m hA v⟩
    | c :: u1 =>
      have hshape : (c :: u1) ++ m ++ v = c :: (u1 ++ m ++ v) := by simp
      by_cases hp : emsg <+: c :: (u1 ++ m ++ v)
      · have hL1 : (c :: u1) ++ (m ++ v) =
            emsg ++ (c :: (u1 ++ m ++ v)).drop emsg.length := by
          calc (c :: u1) ++ (m ++ v) = c :: (u1 ++ m ++ v) := by simp [List.append_assoc]
          _ = emsg ++ (c :: (u1 ++ m ++ v)).drop emsg.length := prefix_drop_decomp hp
        by_cases hc1 : emsg.length ≤ (c :: u1).length
        · obtain ⟨e, hue, hre⟩ := append_split_of_le
            (a := c :: u1) (b := m ++ v) (c := emsg)
            (d := (c :: (u1 ++ m ++ v)).drop emsg.length) hL1 hc1
          obtain ⟨u2, v2, he⟩ := ih e v (by
            have h1 : (c :: u1).length = emsg.length + e.length := by
              rw [hue]
              simp only [List.length_append]
            have h2 : 0 < emsg.length := by decide
            simp only [List.length_cons] at h1 hu
            omega)
          refine ⟨emsgRepl ++ u2, v2, ?_⟩
          rw [hshape, replaceEM_cons_pos hp, hre, ← List.append_assoc, he]
          simp [List.append_assoc]
        · exfalso
          obtain ⟨e, hee, hme⟩ := append_split_of_le
            (a := emsg) (b := (c :: (u1 ++ m ++ v)).drop emsg.length) (c := c :: u1)
            (d := m ++ v) hL1.symm (Nat.le_of_lt (Nat.not_le.mp hc1))
          have hed : e = emsg.drop (c :: u1).length := by rw [hee, List.drop_left]
          have helen : e.length = emsg.length - (c :: u1).length := by
            rw [hed, List.length_drop]
          have hovl : m.take e.length <+: e := overlap_take ⟨_, hme.symm⟩
          refine hB (c :: u1).length (Nat.not_le.mp hc1) (by simp) ?_
          rw [← hed, ← helen]
          exact hovl
      · obtain ⟨u2, v2, he⟩ := ih u1 v (by
          simp only [List.length_cons] at hu
          omega)
        refine ⟨c :: u2, v2, ?_⟩
        rw [hshape, replaceEM_cons_neg hp, he]
        simp

theorem subCatch_mid (m : List Char) (hm0 : m ≠ [])
    (hAc : ∀ k, k < m.length → ¬((m.drop k).take catchPat.length <+: catchPat))
    (hBc : ∀ j, j < catchPat.length → 0 < j → ¬(m.take (catchPat.length - j) <+: catchPat.drop j))
    (hAe : ∀ k, k < m.length → ¬((m.drop k).take emsg.length <+: emsg))
    (hBe : ∀ j, j < emsg.length → 0 < j → ¬(m.take (emsg.length - j) <+: emsg.drop j)) :
    ∀ u v, ∃ u2 v2, subCatch (u ++ m ++ v) = u2 ++ m ++ v2 := by
  have hmpos : 0 < m.length := List.length_pos.mpr hm0
  suffices H : ∀ N u v, u.length ≤ N → ∃ u2 v2, subCatch (u ++ m ++ v) = u2 ++ m ++ v2 by
    exact fun u v => H u.length u v le_rfl
  intro N
  induction N with
  | zero =>
    intro u v hu
    have hu0 : u = [] := List.eq_nil_of_length_eq_zero (Nat.le_zero.mp hu)
    subst hu0
    exact ⟨[], subCatch v, by simpa using subCatch_append_skip m hAc v⟩
  | succ N ih =>
    intro u v hu
    match u with
    | [] =>
      exact ⟨[], subCatch v, by simpa using subCatch_append_skip m hAc v⟩
    | c :: u1 =>
      have hshape : (c :: u1) ++ m ++ v = c :: (u1 ++ m ++ v) := by simp
      cases hmc : matchCatch (c :: (u1 ++ m ++ v)) with
      | none =>
        obtain ⟨u2, v2, he⟩ := ih u1 v (by
          simp only [List.length_cons] at hu
          omega)
        refine ⟨c :: u2, v2, ?_⟩
        rw [hshape, subCatch_cons_none hmc, he]
        simp
      | some p =>
        obtain ⟨span, rest⟩ := p
        obtain ⟨x, hspan, hl, -⟩ := matchCatch_some hmc
        have hsub : subCatch ((c :: u1) ++ m ++ v) = replaceEM span ++ subCatch rest := by
          rw [hshape]
          exact subCatch_cons_some hmc
        have hcpos : 0 < catchPat.length := by decide
        have hepos : 0 < emsg.length := by decide
        have hL1 : (c :: u1) ++ (m ++ v) = catchPat ++ (x ++ (emsg ++ rest)) := by
          calc (c :: u1) ++ (m ++ v) = c :: (u1 ++ m ++ v) := by simp [List.append_assoc]
          _ = catchPat ++ x ++ emsg ++ rest := hl
          _ = catchPat ++ (x ++ (emsg ++ rest)) := by simp [List.append_assoc]
        by_cases hc2 : (c :: u1).length < catchPat.length
        · -- `u` ends inside the literal `catch (error) \x7b`: excluded by hBc.
          exfalso
          obtain ⟨e, hce, hme⟩ := append_split_of_le
            (a := catchPat) (b := x ++ (emsg ++ rest)) (c := c :: u1) (d := m ++ v)
            hL1.symm (Nat.le_of_lt hc2)
          have hed : e = catchPat.drop (c :: u1).length := by rw [hce, List.drop_left]
          have helen : e.length = catchPat.length - (c :: u1).length := by
            rw [hed, List.length_drop]
          have hovl : m.take e.length <+: e := overlap_take ⟨_, hme.symm⟩
          refine hBc (c :: u1).length hc2 (by simp) ?_
          rw [← hed, ← helen]
          exact hovl
        · have hc2' : catchPat.length ≤ (c :: u1).length := Nat.not_lt.mp hc2
          obtain ⟨e1, hue, he1⟩ := append_split_of_le
            (a := c :: u1) (b := m ++ v) (c := catchPat) (d := x ++ (emsg ++ rest))
            hL1 hc2'
          have hulen : (c :: u1).length = catchPat.length + e1.length := by
            rw [hue]
            simp only [List.length_append]
          by_cases hc3 : x.length ≤ e1.length
          · -- The block body `x` lies inside `u`.
            obtain ⟨u3, he1x, hr3⟩ := append_split_of_le
              (a := e1) (b := m ++ v) (c := x) (d := emsg ++ rest) he1.symm hc3
            have he1len : e1.length = x.length + u3.length := by
              rw [he1x]
              simp only [List.length_append]
            by_cases hc4 : emsg.length ≤ u3.length
            · -- The whole span lies inside `u`; `m` is in the unscanned rest.
              obtain ⟨e4, hu3e, hre⟩ := append_split_of_le
                (a := u3) (b := m ++ v) (c := emsg) (d := rest) hr3.symm hc4
              have hu3len : u3.length = emsg.length + e4.length := by
                rw [hu3e]
                simp only [List.length_append]
              obtain ⟨u2, v2, he⟩ := ih e4 v (by
                have hcc : (c :: u1).length = u1.length + 1 := by simp
                omega)
              refine ⟨replaceEM span ++ u2, v2, ?_⟩
              rw [hsub, hre, ← List.append_assoc, he]
              simp [List.append_assoc]
            · -- `u` ends inside the span's final `error.message`.
              exfalso
              rcases Nat.eq_zero_or_pos u3.length with hz | hpos
              · have hu3 : u3 = [] := List.eq_nil_of_length_eq_zero hz
                subst hu3
                have hovl : m.take emsg.length <+: emsg :=
                  overlap_take ⟨rest, by simpa using hr3⟩
                exact hAe 0 hmpos (by simpa using hovl)
              · obtain ⟨e2, hee, hme⟩ := append_split_of_le
                  (a := emsg) (b := rest) (c := u3) (d := m ++ v)
                  hr3 (Nat.le_of_lt (Nat.not_le.mp hc4))
                have hed : e2 = emsg.drop u3.length := by rw [hee, List.drop_left]
                have helen : e2.length = emsg.length - u3.length := by
                  rw [hed, List.length_drop]
                have hovl : m.take e2.length <+: e2 := overlap_take ⟨_, hme.symm⟩
                refine hBe u3.length (Nat.not_le.mp hc4) hpos ?_
                rw [← hed, ← helen]
                exact hovl
          · -- `u` ends inside the block body `x`.
            obtain ⟨x2, hxe, hx2⟩ := append_split_of_le
              (a := x) (b := emsg ++ rest) (c := e1) (d := m ++ v)
              he1 (Nat.le_of_lt (Nat.not_le.mp hc3))
            by_cases hc5 : m.length ≤ x2.length
            · -- `m` lies inside `x`: the span's replace step preserves it.
              obtain ⟨x3, hx2e, hve⟩ := append_split_of_le
                (a := x2) (b := emsg ++ rest) (c := m) (d := v) hx2.symm hc5
              obtain ⟨a2, b2, hrep⟩ := replaceEM_mid m hAe hBe (catchPat ++ e1) (x3 ++ emsg)
              have hspan2 : span = (catchPat ++ e1) ++ m ++ (x3 ++ emsg) := by
                rw [hspan, hxe, hx2e]
                simp [List.append_assoc]
              refine ⟨a2, b2 ++ subCatch rest, ?_⟩
              rw [hsub, hspan2, hrep]
              simp [List.append_assoc]
            · -- `m` starts inside `x` and runs past its end: excluded by hAe.
              exfalso
              obtain ⟨m2, hmm, hem⟩ := append_split_of_le
                (a := m) (b := v) (c := x2) (d := emsg ++ rest)
                hx2 (Nat.le_of_lt (Nat.not_le.mp hc5))
              have hm2d : m2 = m.drop x2.length := by rw [hmm, List.drop_left]
              have hm2pos : 0 < m2.length := by
                have h1 : m.length = x2.length + m2.length := by
                  rw [hmm]
                  simp only [List.length_append]
                have h2 := Nat.not_le.mp hc5
                omega
              have hx2lt : x2.length < m.length := by
                have h1 : m.length = x2.length + m2.length := by
                  rw [hmm]
                  simp only [List.length_append]
                omega
              by_cases hc6 : emsg.length ≤ m2.length
              · -- `error.message` occurs inside `m`.
                obtain ⟨e5, hm2e, -⟩ := append_split_of_le
                  (a := m2) (b := v) (c := emsg) (d := rest) hem.symm hc6
                refine hAe x2.length hx2lt ?_
                rw [← hm2d, hm2e]
                have : (emsg ++ e5).take emsg.length = emsg := List.take_left emsg e5
                rw [this]
              · -- the head of `error.message` coincides with the tail of `m`.
                obtain ⟨e6, hee, -⟩ := append_split_of_le
                  (a := emsg) (b := rest) (c := m2) (d := v)
                  hem (Nat.le_of_lt (Nat.not_le.mp hc6))
                refine hAe x2.length hx2lt ?_
                rw [← hm2d, List.take_of_length_le (Nat.le_of_lt (Nat.not_le.mp hc6))]
                exact ⟨e6, hee.symm⟩

theorem marker_in_rule1 {l : List Char} (h : marker <:+: l) :
    marker <:+: subCapture pparams rule1Tmpl l := by
  obtain ⟨s, t, hst⟩ := h
  obtain ⟨u2, v2, he⟩ := @subCapture_mid pparams rule1Tmpl marker (by decide) (by decide)
    (by decide)
    (fun w => ⟨("(request.params as \x7b ").toList ++ w ++ (": string \x7d).").toList, rfl⟩) s t
  rw [← hst, he]
  exact ⟨u2, v2, rfl⟩

theorem marker_in_ruleq {l : List Char} (h : marker <:+: l) :
    marker <:+: subCapture pquery rule2Tmpl l := by
  obtain ⟨s, t, hst⟩ := h
  obtain ⟨u2, v2, he⟩ := @subCapture_mid pquery rule2Tmpl marker (by decide) (by decide)
    (by decide) (fun w => ⟨("(request.query as QueryParams).").toList, rfl⟩) s t
  rw [← hst, he]
  exact ⟨u2, v2, rfl⟩

theorem marker_in_rule3 {l : List Char} (h : marker <:+: l) :
    marker <:+: subCapture pbody rule3Tmpl l := by
  obtain ⟨s, t, hst⟩ := h
  obtain ⟨u2, v2, he⟩ := @subCapture_mid pbody rule3Tmpl marker (by decide) (by decide)
    (by decide) (fun w => ⟨("(request.body as Record<string, unknown>).").toList, rfl⟩) s t
  rw [← hst, he]
  exact ⟨u2, v2, rfl⟩

theorem marker_in_rule4 {l : List Char} (h : marker <:+: l) : marker <:+: subCatch l := by
  obtain ⟨s, t, hst⟩ := h
  obtain ⟨u2, v2, he⟩ := subCatch_mid marker (by decide) (by decide) (by decide) (by decide)
    (by decide) s t
  rw [← hst, he]
  exact ⟨u2, v2, rfl⟩

theorem rule2_inject_eq {l b a : List Char} (hq : containsSub qtrig l = true)
    (hm : containsSub marker l = false) (hsf : splitFirst anchor l = some (b, a)) :
    rule2 l = subCapture pquery rule2Tmpl (b ++ interfaceDef ++ anchor ++ a) := by
  simp [rule2, hq, hm, hsf]

/-- Counterexample to C5: on `request.query.request.query.x` the first run
(no anchor, so no injection) produces a text on which the second run's Rule 2
rewrite sub-step matches again and changes the text further — the rewrite
sub-step is not idempotent, and no marker is present to be detected. -/
theorem second_run_changes_again :
    fixText (("request.query.request.query.x").toList) =
      ("(request.query as QueryParams).request.query.x").toList ∧
    fixText (("(request.query as QueryParams).request.query.x").toList) =
      ("(request.query as QueryParams).(request.query as QueryParams).x").toList ∧
    ("(request.query as QueryParams).request.query.x").toList ≠
      ("(request.query as QueryParams).(request.query as QueryParams).x").toList :=
  ⟨rfl, rfl, by decide⟩

/-- Amended C5: the interface declaration is injected at most once across
repeated runs: if the first run's Rule 2 performs the injection (trigger
present, marker absent, anchor found in the post-Rule-1 text), then the
injected text contains the marker `interface QueryParams`, the marker survives
the remaining rules of the first run and the Rule 1 pass of the second run, and
the second run therefore detects the marker and skips injection.  (The Rule 2
rewrite sub-step may still change the text again on a second run.) -/
theorem rule2_injects_at_most_once (t : List Char)
    (h : injects (subCapture pparams rule1Tmpl t) = true) :
    injects (subCapture pparams rule1Tmpl (fixText t)) = false := by
  simp only [injects, Bool.and_eq_true, Bool.not_eq_true'] at h
  obtain ⟨⟨hq, hmk⟩, hso⟩ := h
  obtain ⟨p, hp⟩ := Option.isSome_iff_exists.mp hso
  obtain ⟨b, a⟩ := p
  have hr2 : rule2 (subCapture pparams rule1Tmpl t) =
      subCapture pquery rule2Tmpl (b ++ interfaceDef ++ anchor ++ a) :=
    rule2_inject_eq hq hmk hp
  have h0 : marker <:+: (b ++ interfaceDef ++ anchor ++ a) := by
    have h1 : marker <:+: interfaceDef := by decide
    exact h1.trans ⟨b, anchor ++ a, by simp [List.append_assoc]⟩
  have h2 : marker <:+: fixText t := by
    unfold fixText
    rw [hr2]
    exact marker_in_rule4 (marker_in_rule3 (marker_in_ruleq h0))
  have h4 : containsSub marker (subCapture pparams rule1Tmpl (fixText t)) = true := by
    simpa [containsSub] using marker_in_rule1 h2
  simp [injects, h4]

/-- Witness for amended C5: a concrete file on which the first run injects the
interface and the second run's injection condition is false. -/
theorem rule2_injects_at_most_once_witness :
    injects (subCapture pparams rule1Tmpl
      (fixText (("export async function f\nrequest.query.a\n").toList))) = false :=
  rule2_injects_at_most_once (("export async function f\nrequest.query.a\n").toList) rfl
